import Mathlib

/-!
# Verification of the Clean-watermarks batch pipeline

Shallow embedding of the core of the Clean-watermarks repository:

* the zustand batch item store (`src/frontend/src/store/useStore.ts`),
* the image processor (`services/imageProcessor.ts`: fit-mode geometry,
  canvas filter handling, file suffix generation),
* the batch orchestrator (`App.tsx`: `handleBatchDownload`,
  `handleBatchMagicClean`) and the Gemini cleanup adapter
  (`services/geminiService.ts`).

Opaque runtime values are modelled by natural numbers: item ids
(`crypto.randomUUID`, fresh and never reused) are drawn from a counter
`nextId`, and displayable handles (`URL.createObjectURL`) from a counter
`nextHandle`.  `liveHandles` records every object URL that has been created
and not yet revoked, mirroring the set of live blob URLs in the browser.
Store fields not touched by any claim (settings, UI flags, the legacy API
fields) are omitted; `removeFile`/`clearFiles` are verbatim aliases of
`removeBatchItem`/`clearBatchItems` in the source and are represented by
the latter.
-/

namespace CW

/-- The `ProcessingStatus` union from `types.ts`. -/
inductive ProcessingStatus
  | pending
  | detecting
  | removing
  | completed
  | failed
deriving DecidableEq, Repr

/-- The `BatchItem` record from `types.ts`.  The `File` object is represented by the
index `fileIdx` identifying which argument file the item was created from;
`previewUrl` and `processedUrl` are handle numbers. -/
structure BatchItem where
  id : Nat
  fileIdx : Nat
  previewUrl : Nat
  processedUrl : Option Nat
  status : ProcessingStatus
deriving DecidableEq, Repr

/-- A `Partial<BatchItem>` argument to `updateBatchItem`: each field is
optionally overridden (TypeScript spread `{ ...item, ...updates }`). -/
structure BatchItemPatch where
  id : Option Nat
  fileIdx : Option Nat
  previewUrl : Option Nat
  processedUrl : Option (Option Nat)
  status : Option ProcessingStatus
deriving DecidableEq, Repr

/-- The TypeScript spread `{ ...item, ...updates }`. -/
def applyPatch (it : BatchItem) (p : BatchItemPatch) : BatchItem :=
  { id := p.id.getD it.id
    fileIdx := p.fileIdx.getD it.fileIdx
    previewUrl := p.previewUrl.getD it.previewUrl
    processedUrl := p.processedUrl.getD it.processedUrl
    status := p.status.getD it.status }

/-- The store state from `useStore.ts`, restricted to the fields the
claims are about, together with the freshness counters for ids and
handles and the set of live (created, unrevoked) object URLs. -/
@[ext] structure StoreState where
  batchItems : List BatchItem
  selectedId : Option Nat
  sourceImageObj : Option Nat
  activeProcessedUrl : Option Nat
  nextId : Nat
  nextHandle : Nat
  liveHandles : List Nat
deriving DecidableEq, Repr

/-- The store actions exercised by the claims.  `updateBatchItemPreviewFresh`
models the only way `updateBatchItemPreview` is reached in the app:
the caller first creates a fresh object URL (`URL.createObjectURL`) and then
installs it as the new `previewUrl` of the item (cf. `handleBatchMagicClean`). -/
inductive StoreOp
  | addFiles (files : List Nat)
  | removeBatchItem (id : Nat)
  | clearBatchItems
  | setSelectedId (id : Option Nat)
  | selectFile (id : Option Nat)
  | updateBatchItem (id : Nat) (p : BatchItemPatch)
  | updateBatchItemPreviewFresh (id : Nat)
  | reset
deriving DecidableEq, Repr

def MAX_BATCH_SIZE : Nat := 200

/-- JavaScript `xs.slice(0, e)`: a negative end index counts from the end
of the array, clamped at zero. -/
def jsSliceTo (xs : List Nat) (e : Int) : List Nat :=
  if e < 0 then xs.take (xs.length - e.natAbs) else xs.take e.toNat

/-- The `filesToAdd.map(...)` body of `addFiles`: one new pending item per
file, with a fresh id (`generateId`) and a fresh preview handle
(`URL.createObjectURL(file)`). -/
def mkNewItems : List Nat → Nat → Nat → List BatchItem
  | [], _, _ => []
  | f :: fs, i, h =>
    { id := i, fileIdx := f, previewUrl := h, processedUrl := none,
      status := ProcessingStatus.pending } :: mkNewItems fs (i + 1) (h + 1)

/-- Revoking the handles of one item: `URL.revokeObjectURL(item.previewUrl)`
followed by `URL.revokeObjectURL(item.processedUrl)` when present. -/
def revokeItemHandles (live : List Nat) (it : BatchItem) : List Nat :=
  let l1 := live.erase it.previewUrl
  match it.processedUrl with
  | none => l1
  | some p => l1.erase p

/-- One store action, transliterated from `useStore.ts`. -/
def applyOp (s : StoreState) : StoreOp → StoreState
  | .addFiles files =>
    let remainingSlots : Int := (MAX_BATCH_SIZE : Int) - s.batchItems.length
    let filesToAdd := jsSliceTo files remainingSlots
    let newItems := mkNewItems filesToAdd s.nextId s.nextHandle
    let newSelectedId :=
      match s.selectedId with
      | some i => some i
      | none => newItems.head?.map BatchItem.id
    { s with
      batchItems := s.batchItems ++ newItems
      selectedId := newSelectedId
      nextId := s.nextId + newItems.length
      nextHandle := s.nextHandle + newItems.length
      liveHandles := s.liveHandles ++ newItems.map BatchItem.previewUrl }
  | .removeBatchItem id =>
    let found := s.batchItems.find? (fun it => it.id == id)
    let live :=
      match found with
      | none => s.liveHandles
      | some it => revokeItemHandles s.liveHandles it
    let newItems := s.batchItems.filter (fun it => it.id != id)
    let newSel :=
      if s.selectedId = some id then newItems.head?.map BatchItem.id
      else s.selectedId
    { s with batchItems := newItems, selectedId := newSel, liveHandles := live }
  | .clearBatchItems =>
    { s with
      batchItems := []
      selectedId := none
      sourceImageObj := none
      activeProcessedUrl := none
      liveHandles := s.batchItems.foldl revokeItemHandles s.liveHandles }
  | .setSelectedId id => { s with selectedId := id }
  | .selectFile id => { s with selectedId := id }
  | .updateBatchItem id p =>
    { s with
      batchItems := s.batchItems.map
        (fun it => if it.id == id then applyPatch it p else it) }
  | .updateBatchItemPreviewFresh id =>
    { s with
      batchItems := s.batchItems.map
        (fun it => if it.id == id then { it with previewUrl := s.nextHandle } else it)
      nextHandle := s.nextHandle + 1
      liveHandles := s.liveHandles ++ [s.nextHandle] }
  | .reset =>
    { batchItems := []
      selectedId := none
      sourceImageObj := none
      activeProcessedUrl := none
      nextId := s.nextId
      nextHandle := s.nextHandle
      liveHandles := s.batchItems.foldl revokeItemHandles s.liveHandles }

/-- The initial store state. -/
def initState : StoreState :=
  { batchItems := [], selectedId := none, sourceImageObj := none,
    activeProcessedUrl := none, nextId := 0, nextHandle := 0, liveHandles := [] }

/-- Running a sequence of store actions from the initial state. -/
def applyOps (ops : List StoreOp) : StoreState := ops.foldl applyOp initState

/-! ## Basic lemmas about the store -/

theorem mkNewItems_length (fs : List Nat) :
    ∀ i h, (mkNewItems fs i h).length = fs.length := by
  induction fs with
  | nil => intro i h; rfl
  | cons f fs ih => intro i h; simp [mkNewItems, ih]

theorem mkNewItems_map_fileIdx (fs : List Nat) :
    ∀ i h, (mkNewItems fs i h).map BatchItem.fileIdx = fs := by
  induction fs with
  | nil => intro i h; rfl
  | cons f fs ih => intro i h; simp [mkNewItems, ih]

theorem jsSliceTo_of_le (xs : List Nat) (n m : Nat) (h : m ≤ n) :
    jsSliceTo xs ((n : Int) - m) = xs.take (n - m) := by
  have h0 : (0 : Int) ≤ (n : Int) - m := by
    omega
  rw [jsSliceTo, if_neg (by omega)]
  congr 1
  omega

/-- Each action keeps the queue within the 200-item quota. -/
theorem applyOp_size_le (s : StoreState) (op : StoreOp)
    (h : s.batchItems.length ≤ MAX_BATCH_SIZE) :
    (applyOp s op).batchItems.length ≤ MAX_BATCH_SIZE := by
  cases op with
  | addFiles files =>
    simp only [applyOp, List.length_append, mkNewItems_length,
      jsSliceTo_of_le _ _ _ h, List.length_take]
    omega
  | removeBatchItem id =>
    simp only [applyOp]
    exact le_trans (List.length_filter_le _ _) h
  | clearBatchItems => simp [applyOp]
  | setSelectedId id => simpa [applyOp] using h
  | selectFile id => simpa [applyOp] using h
  | updateBatchItem id p => simpa [applyOp] using h
  | updateBatchItemPreviewFresh id => simpa [applyOp] using h
  | reset => simp [applyOp]

theorem foldl_size_le (ops : List StoreOp) :
    ∀ s : StoreState, s.batchItems.length ≤ MAX_BATCH_SIZE →
      (ops.foldl applyOp s).batchItems.length ≤ MAX_BATCH_SIZE := by
  induction ops with
  | nil => intro s h; simpa using h
  | cons op rest ih =>
    intro s h
    exact ih (applyOp s op) (applyOp_size_le s op h)

theorem applyOps_size_le (ops : List StoreOp) :
    (applyOps ops).batchItems.length ≤ MAX_BATCH_SIZE :=
  foldl_size_le ops initState (by simp [initState])

/-- C1: the capacity behaviour of `addFiles` on any reachable store state. -/
theorem addFiles_capacity (ops : List StoreOp) (files : List Nat) :
    (applyOps ops).batchItems.length ≤ MAX_BATCH_SIZE
    ∧ (applyOp (applyOps ops) (StoreOp.addFiles files)).batchItems.length
        = (applyOps ops).batchItems.length
          + min files.length (MAX_BATCH_SIZE - (applyOps ops).batchItems.length)
    ∧ (applyOp (applyOps ops) (StoreOp.addFiles files)).batchItems.map BatchItem.fileIdx
        = (applyOps ops).batchItems.map BatchItem.fileIdx
          ++ files.take (min files.length
              (MAX_BATCH_SIZE - (applyOps ops).batchItems.length)) := by
  have hsz := applyOps_size_le ops
  refine ⟨hsz, ?_, ?_⟩
  · simp only [applyOp, List.length_append, mkNewItems_length,
      jsSliceTo_of_le _ _ _ hsz, List.length_take]
    omega
  · simp only [applyOp, List.map_append, mkNewItems_map_fileIdx,
      jsSliceTo_of_le _ _ _ hsz]
    congr 1
    exact List.take_eq_take.mpr (by omega)

/-! ## Image processor (`services/imageProcessor.ts`) -/

/-- The `FitMode` enum from `types.ts`. -/
inductive FitMode
  | containBlur
  | containBlack
  | cover
deriving DecidableEq, Repr

/-- The `OutputPreset` enum from `types.ts`. -/
inductive OutputPreset
  | ultra8k
  | ytThumbnail
deriving DecidableEq, Repr

/-- The `OUTPUT_DIMENSIONS` table from `types.ts`. -/
def OUTPUT_DIMENSIONS : OutputPreset → Nat × Nat
  | .ultra8k => (7680, 4320)
  | .ytThumbnail => (1280, 720)

/-- The `getFileSuffix` function from `imageProcessor.ts`. -/
def getFileSuffix (preset : OutputPreset) (enhanced : Bool) : String :=
  let s1 := if enhanced then "-natgeo" else ""
  let s2 := if preset = OutputPreset.ultra8k then s1 ++ "-8k.jpg"
            else s1 ++ "-thumbnail.jpg"
  s2

/-! ### Geometry

The scale/offset arithmetic that appears inline in `processImage`,
`processImageToBlob` and `createBlurredBackground`, over exact rationals. -/

/-- Contain scale `Math.min(targetW / img.width, targetH / img.height)`: the contain
scale computed in the `CONTAIN_BLUR` and `CONTAIN_BLACK` branches. -/
def containScale (sw sh tw th : ℚ) : ℚ := min (tw / sw) (th / sh)

/-- Cover scale `Math.max(targetW / img.width, targetH / img.height)`: the cover
scale computed in the `COVER` branch and in `createBlurredBackground`. -/
def coverScale (sw sh tw th : ℚ) : ℚ := max (tw / sw) (th / sh)

/-- Scaled size and centred placement of one `drawImage` call. -/
structure Placement where
  scaledW : ℚ
  scaledH : ℚ
  x : ℚ
  y : ℚ
deriving DecidableEq, Repr

/-- The placement of the main (foreground) image draw in each fit mode:
`scaledWidth = img.width * scale`, `x = (targetWidth - scaledWidth) / 2`,
and likewise for heights, with the contain scale in the two contain modes
and the cover scale in cover mode. -/
def mainPlacement (mode : FitMode) (sw sh tw th : ℚ) : Placement :=
  match mode with
  | .cover =>
    let s := coverScale sw sh tw th
    { scaledW := sw * s, scaledH := sh * s,
      x := (tw - sw * s) / 2, y := (th - sh * s) / 2 }
  | _ =>
    let s := containScale sw sh tw th
    { scaledW := sw * s, scaledH := sh * s,
      x := (tw - sw * s) / 2, y := (th - sh * s) / 2 }

/-! ### Canvas filter state

`processImage` drives a canvas whose `ctx.filter` property is overwritten
by plain assignment; a draw call uses whatever filter string is active at
that moment.  We replay the assignments of `processImage` /
`processImageToBlob` (both have identical bodies up to the final encoding)
and record every drawing operation together with the filter in effect. -/

/-- The filter string set by `applyEnhancement`. -/
def enhanceFilter : String := "contrast(1.1) saturate(1.15)"

/-- The filter string set by `createBlurredBackground` for the backdrop. -/
def blurFilter : String := "blur(50px) brightness(0.7)"

/-- The neutral filter string. -/
def noFilter : String := "none"

/-- A drawing operation on the canvas, with the filter active when it ran:
`imageDraw target f` is a `ctx.drawImage` call and `rectFill f` is the
`ctx.fillRect` black fill of the `CONTAIN_BLACK` branch. -/
inductive CanvasEvent
  | imageDraw (target : String) (activeFilter : String)
  | rectFill (activeFilter : String)
deriving DecidableEq, Repr

/-- The sequence of drawing operations performed by `processImage`
(equivalently `processImageToBlob`), replaying its `ctx.filter`
assignments:

* the context starts with filter `none`; if `enhance`, `applyEnhancement`
  sets the enhancement filter;
* `CONTAIN_BLUR`: `createBlurredBackground` assigns the blur+darken filter
  (replacing whatever was set), draws the backdrop, then assigns `none`;
  back in `processImage` the filter is set to the enhancement filter if
  `enhance` (else `none`) and the sharp foreground is drawn;
* `CONTAIN_BLACK`: the black `fillRect` and the single image draw both run
  under the initially set filter;
* `COVER`: the single image draw runs under the initially set filter. -/
def processImageEvents (mode : FitMode) (enhance : Bool) : List CanvasEvent :=
  let f0 := if enhance then enhanceFilter else noFilter
  match mode with
  | .containBlur =>
    let f1 := if enhance then enhanceFilter else noFilter
    [CanvasEvent.imageDraw "backdrop" blurFilter,
     CanvasEvent.imageDraw "main" f1]
  | .containBlack =>
    [CanvasEvent.rectFill f0, CanvasEvent.imageDraw "main" f0]
  | .cover =>
    [CanvasEvent.imageDraw "main" f0]

/-- Returns `true` when every `drawImage` in the list ran with the enhancement
filter active. -/
def allImageDrawsEnhanced (events : List CanvasEvent) : Bool :=
  events.all fun e =>
    match e with
    | .imageDraw _ f => f == enhanceFilter
    | .rectFill _ => true

/-! ## Batch orchestrator (`App.tsx`) -/

/-- What happens to one item inside the `handleBatchDownload` loop body:
its decode (`loadImage`) can reject, its AI-clean call
(`removeLogosFromImage`, attempted only when `batchCleanLogos` is set)
can reject, its composite/encode (`processImageToBlob`) can reject, or
everything succeeds. -/
inductive ItemOutcome
  | ok
  | cleanFail
  | decodeFail
  | encodeFail
deriving DecidableEq, Repr

/-- Observable result of one `handleBatchDownload` run: the number of
entries in the generated zip (`none` when the outer `catch` fired before
`zip.generateAsync`), the number of loop iterations that were started, and
whether the whole-batch failure `alert` was shown. -/
structure RunResult where
  archiveEntries : Option Nat
  itemsStarted : Nat
  alerted : Bool
deriving DecidableEq, Repr

/-- The `for` loop of `handleBatchDownload` over the remaining items,
with `archived` files already added to the zip folder.  Only the AI-clean
step sits in its own `try`/`catch` (falling back to the original image);
a rejected `loadImage` or `processImageToBlob` propagates to the single
outer `catch`, which alerts and returns without generating the zip. -/
def downloadGo : List ItemOutcome → Nat → RunResult
  | [], archived =>
    { archiveEntries := some archived, itemsStarted := archived, alerted := false }
  | o :: rest, archived =>
    match o with
    | .decodeFail =>
      { archiveEntries := none, itemsStarted := archived + 1, alerted := true }
    | .encodeFail =>
      { archiveEntries := none, itemsStarted := archived + 1, alerted := true }
    | .cleanFail => downloadGo rest (archived + 1)
    | .ok => downloadGo rest (archived + 1)

/-- A full `handleBatchDownload` run over a queue whose items have the
given outcomes. -/
def downloadRun (outcomes : List ItemOutcome) : RunResult :=
  downloadGo outcomes 0

/-- JavaScript `Math.round((i / n) * 100)` for naturals `i ≤ n`, `n > 0`:
`Math.round` is round-half-up, i.e. `⌊x + 1/2⌋`, and
`⌊100 i / n + 1/2⌋ = ⌊(200 i + n) / (2 n)⌋`. -/
def jsRound100 (i n : Nat) : Nat := (200 * i + n) / (2 * n)

/-- The successive `setZipProgress` values of a successful
`handleBatchDownload` run over `n ≥ 1` items: `0` before the loop,
`Math.round((i / n) * 100)` at the top of each iteration, then the fixed
`95` before `zip.generateAsync` and `100` after it. -/
def downloadProgress (n : Nat) : List Nat :=
  0 :: ((List.range n).map fun i => jsRound100 i n) ++ [95, 100]

/-- The successive `setZipProgress` values of a `handleBatchMagicClean`
run over `n ≥ 1` items: `Math.round((i / n) * 100)` at the top of each
iteration, then `100` after the loop (the later reset to `0` happens in a
`setTimeout` after the run has reported completion). -/
def magicCleanProgress (n : Nat) : List Nat :=
  ((List.range n).map fun i => jsRound100 i n) ++ [100]

/-! ## Cleanup adapter (`services/geminiService.ts`) and magic-clean-all -/

/-- The outcome of one `removeLogosFromImage` call: when no API key is
configured the function throws `Gemini API key not configured...` before
doing anything else; otherwise it succeeds or throws depending on the
service (`serviceOk` abstracts the network round-trip). -/
def removeLogosResult (configured serviceOk : Bool) : Except String Unit :=
  if !configured then
    Except.error "Gemini API key not configured. Please set VITE_GEMINI_API_KEY in your environment."
  else if serviceOk then Except.ok ()
  else Except.error "API request failed"

/-- Observable result of one `handleBatchMagicClean` run. -/
structure MagicCleanResult where
  itemsAttempted : Nat
  previewsUpdated : Nat
  alerted : Bool
  finalStatus : String
  finalProgress : Nat
deriving DecidableEq, Repr

/-- The `for` loop of `handleBatchMagicClean`: each iteration calls
`removeLogosFromImage` inside a per-item `try`/`catch`; on success the
preview of the item is replaced, on any rejection (including the
not-configured error) the loop logs and moves on.  Returns (iterations
run, previews updated). -/
def magicCleanGo (configured : Bool) : List Bool → Nat × Nat
  | [] => (0, 0)
  | serviceOk :: rest =>
    let step : Nat :=
      match removeLogosResult configured serviceOk with
      | .ok _ => 1
      | .error _ => 0
    let r := magicCleanGo configured rest
    (r.1 + 1, r.2 + step)

/-- A full `handleBatchMagicClean` run over a queue whose per-item service
outcomes are `outcomes`.  No per-item rejection reaches the outer
`catch`, so the run always ends with `setZipProgress(100)` and the status
message `All Cleaned!`, and never shows the batch-clean failure alert. -/
def magicCleanRun (configured : Bool) (outcomes : List Bool) : MagicCleanResult :=
  let r := magicCleanGo configured outcomes
  { itemsAttempted := r.1, previewsUpdated := r.2, alerted := false,
    finalStatus := "All Cleaned!", finalProgress := 100 }

/-! ## Theorems about the image processor -/

/-- C9: `getFileSuffix` produces an optional `-natgeo` (exactly when
enhancement is on) followed by `-8k.jpg` for the `ultra_8k` preset and
`-thumbnail.jpg` otherwise; in particular `(ultra_8k, false)` yields
`-8k.jpg` and `(yt_thumbnail, true)` yields `-natgeo-thumbnail.jpg`. -/
theorem getFileSuffix_spec :
    getFileSuffix OutputPreset.ultra8k false = "-8k.jpg"
    ∧ getFileSuffix OutputPreset.ultra8k true = "-natgeo-8k.jpg"
    ∧ getFileSuffix OutputPreset.ytThumbnail false = "-thumbnail.jpg"
    ∧ getFileSuffix OutputPreset.ytThumbnail true = "-natgeo-thumbnail.jpg" :=
  ⟨rfl, rfl, rfl, rfl⟩

/-- C4 fails on the code: in `contain_blur` mode with `enhance = true` the
blurred backdrop is drawn while `ctx.filter` is
`blur(50px) brightness(0.7)` — the assignment in `createBlurredBackground`
replaces the enhancement filter instead of composing with it — so the
enhancement is not in effect for that draw. -/
theorem backdrop_draw_not_enhanced :
    allImageDrawsEnhanced (processImageEvents FitMode.containBlur true) = false
    ∧ processImageEvents FitMode.containBlur true
        = [CanvasEvent.imageDraw "backdrop" blurFilter,
           CanvasEvent.imageDraw "main" enhanceFilter]
    ∧ blurFilter ≠ enhanceFilter := by
  refine ⟨rfl, rfl, ?_⟩
  decide

/-- C4 amended: with `enhance = true` the enhancement filter is in effect
for the sharp foreground draw in `contain_blur` and for the single image
draw in `contain_black` and `cover`, but the backdrop draw in
`contain_blur` runs under the blur+darken filter, which replaces the
enhancement filter. -/
theorem enhance_filter_per_draw :
    processImageEvents FitMode.containBlur true
      = [CanvasEvent.imageDraw "backdrop" blurFilter,
         CanvasEvent.imageDraw "main" enhanceFilter]
    ∧ processImageEvents FitMode.containBlack true
      = [CanvasEvent.rectFill enhanceFilter,
         CanvasEvent.imageDraw "main" enhanceFilter]
    ∧ processImageEvents FitMode.cover true
      = [CanvasEvent.imageDraw "main" enhanceFilter]
    ∧ allImageDrawsEnhanced (processImageEvents FitMode.containBlack true) = true
    ∧ allImageDrawsEnhanced (processImageEvents FitMode.cover true) = true :=
  ⟨rfl, rfl, rfl, rfl, rfl⟩

/-- C3: for positive dimensions the contain scale keeps both scaled
dimensions within the target, the cover scale keeps both scaled dimensions
at least the target, and in every fit mode the main draw is centred:
`offset = (target - scaled) / 2`. -/
theorem geometry_bounds (sw sh tw th : ℚ)
    (hsw : 0 < sw) (hsh : 0 < sh) (htw : 0 < tw) (hth : 0 < th) :
    sw * containScale sw sh tw th ≤ tw
    ∧ sh * containScale sw sh tw th ≤ th
    ∧ tw ≤ sw * coverScale sw sh tw th
    ∧ th ≤ sh * coverScale sw sh tw th
    ∧ ∀ mode : FitMode,
        (mainPlacement mode sw sh tw th).x
          = (tw - (mainPlacement mode sw sh tw th).scaledW) / 2
        ∧ (mainPlacement mode sw sh tw th).y
          = (th - (mainPlacement mode sw sh tw th).scaledH) / 2 := by
  refine ⟨?_, ?_, ?_, ?_, ?_⟩
  · calc sw * containScale sw sh tw th ≤ sw * (tw / sw) :=
          mul_le_mul_of_nonneg_left (min_le_left _ _) hsw.le
      _ = tw := by rw [mul_comm]; exact div_mul_cancel₀ tw (ne_of_gt hsw)
  · calc sh * containScale sw sh tw th ≤ sh * (th / sh) :=
          mul_le_mul_of_nonneg_left (min_le_right _ _) hsh.le
      _ = th := by rw [mul_comm]; exact div_mul_cancel₀ th (ne_of_gt hsh)
  · calc tw = sw * (tw / sw) := by
          rw [mul_comm]; exact (div_mul_cancel₀ tw (ne_of_gt hsw)).symm
      _ ≤ sw * coverScale sw sh tw th :=
          mul_le_mul_of_nonneg_left (le_max_left _ _) hsw.le
  · calc th = sh * (th / sh) := by
          rw [mul_comm]; exact (div_mul_cancel₀ th (ne_of_gt hsh)).symm
      _ ≤ sh * coverScale sw sh tw th :=
          mul_le_mul_of_nonneg_left (le_max_right _ _) hsh.le
  · intro mode
    cases mode <;> exact ⟨rfl, rfl⟩

/-- Witness for `geometry_bounds` at a 4:3 source fitted into a 16:9
target. -/
theorem geometry_bounds_witness :
    4 * containScale 4 3 16 9 ≤ 16
    ∧ 3 * containScale 4 3 16 9 ≤ 9
    ∧ 16 ≤ 4 * coverScale 4 3 16 9
    ∧ 9 ≤ 3 * coverScale 4 3 16 9
    ∧ (mainPlacement FitMode.cover 4 3 16 9).x
        = (16 - (mainPlacement FitMode.cover 4 3 16 9).scaledW) / 2 :=
  have h := geometry_bounds 4 3 16 9 (by norm_num) (by norm_num)
    (by norm_num) (by norm_num)
  ⟨h.1, h.2.1, h.2.2.1, h.2.2.2.1, (h.2.2.2.2 FitMode.cover).1⟩

/-! ## Theorems about the orchestrator -/

/-- C7 fails on the code: with no API key configured, a magic-clean-all
run does not abort — the not-configured error thrown by
`removeLogosFromImage` is caught by the per-item `catch`, so every item is
attempted (and skipped), no alert fires, and the run ends with the
`All Cleaned!` status. -/
theorem magicClean_notConfigured_counterexample :
    magicCleanRun false [true, true, true]
      = { itemsAttempted := 3, previewsUpdated := 0, alerted := false,
          finalStatus := "All Cleaned!", finalProgress := 100 }
    ∧ (magicCleanRun false [true, true, true]).alerted ≠ true := by
  refine ⟨rfl, ?_⟩
  decide

/-- C7 amended: when the cleanup capability is not configured, a
magic-clean-all run attempts every item in the queue, the cleanup of each item
fails and is skipped per item, no preview is updated, and the run finishes
without any whole-run abort or user-facing configuration message. -/
theorem magicClean_notConfigured_amended (outcomes : List Bool) :
    magicCleanRun false outcomes
      = { itemsAttempted := outcomes.length, previewsUpdated := 0,
          alerted := false, finalStatus := "All Cleaned!",
          finalProgress := 100 } := by
  have hgo : magicCleanGo false outcomes = (outcomes.length, 0) := by
    induction outcomes with
    | nil => rfl
    | cons b rest ih => simp [magicCleanGo, removeLogosResult, ih]
  simp [magicCleanRun, hgo]

/-- C2 fails on the code: in a 5-item export where the decode of item 3 fails,
the whole run aborts — the rejection of `loadImage` propagates to the
single outer `catch` of `handleBatchDownload`, items 4–5 are never
processed, the zip is never generated (so the archive does not hold 4
entries), and the batch-failure alert is shown. -/
theorem downloadRun_decode_abort_counterexample :
    downloadRun [ItemOutcome.ok, ItemOutcome.ok, ItemOutcome.decodeFail,
        ItemOutcome.ok, ItemOutcome.ok]
      = { archiveEntries := none, itemsStarted := 3, alerted := true }
    ∧ (downloadRun [ItemOutcome.ok, ItemOutcome.ok, ItemOutcome.decodeFail,
        ItemOutcome.ok, ItemOutcome.ok]).archiveEntries ≠ some 4 := by
  refine ⟨rfl, ?_⟩
  decide

theorem downloadGo_soft (pre : List ItemOutcome)
    (hpre : ∀ x ∈ pre, x = ItemOutcome.ok ∨ x = ItemOutcome.cleanFail) :
    ∀ k, downloadGo pre k
      = { archiveEntries := some (k + pre.length),
          itemsStarted := k + pre.length, alerted := false } := by
  induction pre with
  | nil => intro k; simp [downloadGo]
  | cons o rest ih =>
    intro k
    have ho := hpre o (by simp)
    have hrest : ∀ x ∈ rest, x = ItemOutcome.ok ∨ x = ItemOutcome.cleanFail :=
      fun x hx => hpre x (by simp [hx])
    have harith : k + 1 + rest.length = k + (rest.length + 1) := by omega
    rcases ho with h | h <;>
      · subst h
        simp only [downloadGo, ih hrest (k + 1), List.length_cons, harith]

theorem downloadGo_hard (pre : List ItemOutcome) (o : ItemOutcome)
    (post : List ItemOutcome)
    (hpre : ∀ x ∈ pre, x = ItemOutcome.ok ∨ x = ItemOutcome.cleanFail)
    (ho : o = ItemOutcome.decodeFail ∨ o = ItemOutcome.encodeFail) :
    ∀ k, downloadGo (pre ++ o :: post) k
      = { archiveEntries := none, itemsStarted := k + pre.length + 1,
          alerted := true } := by
  induction pre with
  | nil =>
    intro k
    rcases ho with h | h <;> (subst h; simp [downloadGo])
  | cons x rest ih =>
    intro k
    have hx := hpre x (by simp)
    have hrest : ∀ y ∈ rest, y = ItemOutcome.ok ∨ y = ItemOutcome.cleanFail :=
      fun y hy => hpre y (by simp [hy])
    have harith : k + 1 + rest.length + 1 = k + (rest.length + 1) + 1 := by
      omega
    rcases hx with h | h <;>
      · subst h
        simp only [List.cons_append, downloadGo, List.append_eq,
          ih hrest (k + 1), List.length_cons, harith]

/-- C2 amended: in `handleBatchDownload` only the AI-clean step is
isolated per item (a failed clean falls back to the uncleaned image); an
unrecoverable decode or encode failure aborts the whole run at that item —
later items are not processed and no archive is produced — while a run
whose items only succeed or fail their clean step archives every item. -/
theorem downloadRun_abort_semantics (pre post : List ItemOutcome)
    (o : ItemOutcome)
    (hpre : ∀ x ∈ pre, x = ItemOutcome.ok ∨ x = ItemOutcome.cleanFail)
    (ho : o = ItemOutcome.decodeFail ∨ o = ItemOutcome.encodeFail) :
    downloadRun pre
      = { archiveEntries := some pre.length, itemsStarted := pre.length,
          alerted := false }
    ∧ downloadRun (pre ++ o :: post)
      = { archiveEntries := none, itemsStarted := pre.length + 1,
          alerted := true } := by
  constructor
  · simpa using downloadGo_soft pre hpre 0
  · simpa using downloadGo_hard pre o post hpre ho 0

/-- Witness for `downloadRun_abort_semantics`: two soft items followed by
a decode failure and one further item. -/
theorem downloadRun_abort_semantics_witness :
    downloadRun [ItemOutcome.ok, ItemOutcome.cleanFail]
      = { archiveEntries := some 2, itemsStarted := 2, alerted := false }
    ∧ downloadRun ([ItemOutcome.ok, ItemOutcome.cleanFail]
        ++ ItemOutcome.decodeFail :: [ItemOutcome.ok])
      = { archiveEntries := none, itemsStarted := 3, alerted := true } :=
  downloadRun_abort_semantics [ItemOutcome.ok, ItemOutcome.cleanFail]
    [ItemOutcome.ok] ItemOutcome.decodeFail (by decide) (Or.inl rfl)

/-- A computable check that a list of progress values is non-decreasing. -/
def monotoneB : List Nat → Bool
  | [] => true
  | [_] => true
  | a :: b :: t => decide (a ≤ b) && monotoneB (b :: t)

theorem chain'_imp_monotoneB :
    ∀ l : List Nat, List.Chain' (· ≤ ·) l → monotoneB l = true
  | [], _ => rfl
  | [_], _ => rfl
  | a :: b :: t, h => by
    rw [List.chain'_cons] at h
    simp only [monotoneB, Bool.and_eq_true, decide_eq_true_eq]
    exact ⟨h.1, chain'_imp_monotoneB (b :: t) h.2⟩

/-- C6 fails on the code: in an export-all run over 23 items the reported
progress is not monotone — the last pre-item value is
`Math.round(100 * 22 / 23) = 96`, which is followed by the fixed `95`
emitted before `zip.generateAsync`. -/
theorem downloadProgress_not_monotone :
    ¬ List.Chain' (· ≤ ·) (downloadProgress 23)
    ∧ jsRound100 22 23 = 96 := by
  refine ⟨fun h => ?_, rfl⟩
  have := chain'_imp_monotoneB (downloadProgress 23) h
  have hfalse : monotoneB (downloadProgress 23) = false := by rfl
  rw [hfalse] at this
  exact Bool.false_ne_true this

theorem jsRound100_mono (n i j : Nat) (h : i ≤ j) :
    jsRound100 i n ≤ jsRound100 j n :=
  Nat.div_le_div_right (by omega)

theorem jsRound100_le_95 (i n : Nat) (hi : i < n) (hn : n ≤ 22) :
    jsRound100 i n ≤ 95 := by
  show (200 * i + n) / (2 * n) ≤ 95
  have hb : 0 < 2 * n := by omega
  have hlt : 200 * i + n < 96 * (2 * n) := by omega
  have := (Nat.div_lt_iff_lt_mul hb).mpr hlt
  omega

theorem jsRound100_le_100 (i n : Nat) (hi : i < n) :
    jsRound100 i n ≤ 100 := by
  show (200 * i + n) / (2 * n) ≤ 100
  have hb : 0 < 2 * n := by omega
  have hlt : 200 * i + n < 101 * (2 * n) := by omega
  have := (Nat.div_lt_iff_lt_mul hb).mpr hlt
  omega

theorem range_map_jsRound100_pairwise (n : Nat) :
    ((List.range n).map fun i => jsRound100 i n).Pairwise (· ≤ ·) :=
  (List.pairwise_lt_range n).map _
    (fun _ _ hab => jsRound100_mono n _ _ hab.le)

/-- C6 amended: magic-clean-all progress is monotonically non-decreasing
ending at 100 for every queue size, and export-all progress is
monotonically non-decreasing ending at 100 for queues of at most 22 items;
for 23 or more items the last pre-item export value
`Math.round(100 (n-1) / n) ≥ 96` exceeds the fixed 95 reported before
archive generation. -/
theorem progress_monotone_amended (n : Nat) :
    List.Chain' (· ≤ ·) (magicCleanProgress n)
    ∧ (n ≤ 22 → List.Chain' (· ≤ ·) (downloadProgress n)) := by
  constructor
  · rw [magicCleanProgress, List.chain'_iff_pairwise, List.pairwise_append]
    refine ⟨range_map_jsRound100_pairwise n, by simp, ?_⟩
    intro a ha b hb
    rcases List.mem_map.mp ha with ⟨i, hi, rfl⟩
    have : b = 100 := by simpa using hb
    subst this
    exact jsRound100_le_100 i n (List.mem_range.mp hi)
  · intro hn
    rw [downloadProgress, List.chain'_iff_pairwise, List.pairwise_append]
    refine ⟨?_, by simp, ?_⟩
    · rw [List.pairwise_cons]
      exact ⟨fun b _ => Nat.zero_le b, range_map_jsRound100_pairwise n⟩
    · intro a ha b hb
      have hb95 : b = 95 ∨ b = 100 := by simpa using hb
      have ha0 : a = 0 ∨ a ∈ (List.range n).map fun i => jsRound100 i n := by
        simpa using ha
      rcases ha0 with rfl | hmap
      · exact Nat.zero_le b
      · rcases List.mem_map.mp hmap with ⟨i, hi, rfl⟩
        have hle : jsRound100 i n ≤ 95 :=
          jsRound100_le_95 i n (List.mem_range.mp hi) hn
        rcases hb95 with rfl | rfl
        · exact hle
        · omega

/-- Witness for `progress_monotone_amended` at a 5-item queue. -/
theorem progress_monotone_witness :
    List.Chain' (· ≤ ·) (magicCleanProgress 5)
    ∧ List.Chain' (· ≤ ·) (downloadProgress 5) :=
  ⟨(progress_monotone_amended 5).1,
   (progress_monotone_amended 5).2 (by omega)⟩

/-! ## Theorems about the store: selection pointer -/

/-- The selection invariant: `selectedId` is null or the id of a queued
item. -/
def selInvB (s : StoreState) : Bool :=
  match s.selectedId with
  | none => true
  | some i => s.batchItems.any fun it => it.id == i

/-- A call is selection-safe when `setSelectedId`/`selectFile` receive
null or an id present in the queue at call time, and `updateBatchItem`
patches do not rewrite the `id` field (as every caller in the app does). -/
def opSelSafeB (s : StoreState) : StoreOp → Bool
  | .setSelectedId none => true
  | .setSelectedId (some i) => s.batchItems.any fun it => it.id == i
  | .selectFile none => true
  | .selectFile (some i) => s.batchItems.any fun it => it.id == i
  | .updateBatchItem _ p => decide (p.id = none)
  | _ => true

/-- All calls in a sequence are selection-safe, each judged in the state
it runs in. -/
def opsSelSafeB (s : StoreState) : List StoreOp → Bool
  | [] => true
  | op :: rest => opSelSafeB s op && opsSelSafeB (applyOp s op) rest

theorem any_id_map (l : List BatchItem) (g : BatchItem → BatchItem)
    (hg : ∀ it, (g it).id = it.id) (i : Nat) :
    ((l.map g).any fun it => it.id == i) = l.any fun it => it.id == i := by
  induction l with
  | nil => rfl
  | cons a t ih => simp only [List.map_cons, List.any_cons, hg, ih]

theorem selInvB_applyOp (s : StoreState) (op : StoreOp)
    (hs : selInvB s = true) (hop : opSelSafeB s op = true) :
    selInvB (applyOp s op) = true := by
  cases op with
  | addFiles files =>
    simp only [applyOp, selInvB]
    cases hsel : s.selectedId with
    | some i =>
      have : (s.batchItems.any fun it => it.id == i) = true := by
        simpa [selInvB, hsel] using hs
      simp [List.any_append, this]
    | none =>
      cases hitems :
          mkNewItems (jsSliceTo files ((MAX_BATCH_SIZE : Int) - s.batchItems.length))
            s.nextId s.nextHandle with
      | nil => simp [hitems]
      | cons a t => simp [hitems, List.any_append]
  | removeBatchItem i =>
    simp only [applyOp, selInvB]
    by_cases hsel : s.selectedId = some i
    · rw [if_pos hsel]
      cases hfil : s.batchItems.filter (fun it => it.id != i) with
      | nil => simp
      | cons a t => simp [hfil]
    · rw [if_neg hsel]
      cases hselv : s.selectedId with
      | none => simp
      | some j =>
        have hj : (s.batchItems.any fun it => it.id == j) = true := by
          simpa [selInvB, hselv] using hs
        rcases List.any_eq_true.mp hj with ⟨it, hmem, hit⟩
        have hji : j ≠ i := fun h => hsel (by rw [hselv, h])
        have hitid : it.id = j := by simpa using hit
        refine List.any_eq_true.mpr ⟨it, ?_, by simpa [hitid]⟩
        refine List.mem_filter.mpr ⟨hmem, ?_⟩
        simp [hitid, hji]
  | clearBatchItems => simp [applyOp, selInvB]
  | setSelectedId oi =>
    cases oi with
    | none => simp [applyOp, selInvB]
    | some i =>
      simpa [applyOp, selInvB] using (by simpa [opSelSafeB] using hop :
        (s.batchItems.any fun it => it.id == i) = true)
  | selectFile oi =>
    cases oi with
    | none => simp [applyOp, selInvB]
    | some i =>
      simpa [applyOp, selInvB] using (by simpa [opSelSafeB] using hop :
        (s.batchItems.any fun it => it.id == i) = true)
  | updateBatchItem i p =>
    have hid : p.id = none := by simpa [opSelSafeB] using hop
    have hg : ∀ it : BatchItem,
        (if (it.id == i) = true then applyPatch it p else it).id = it.id := by
      intro it
      by_cases hc : it.id == i
      · simp [hc, applyPatch, hid]
      · simp [hc]
    cases hselv : s.selectedId with
    | none => simp [applyOp, selInvB, hselv]
    | some j =>
      have hj : (s.batchItems.any fun it => it.id == j) = true := by
        simpa [selInvB, hselv] using hs
      have hmap := any_id_map s.batchItems
        (fun it => if (it.id == i) = true then applyPatch it p else it) hg j
      simp only [applyOp, selInvB, hselv, hmap]
      exact hj
  | updateBatchItemPreviewFresh i =>
    have hg : ∀ it : BatchItem,
        (if (it.id == i) = true then { it with previewUrl := s.nextHandle }
         else it).id = it.id := by
      intro it
      by_cases hc : it.id == i
      · simp [hc]
      · simp [hc]
    cases hselv : s.selectedId with
    | none => simp [applyOp, selInvB, hselv]
    | some j =>
      have hj : (s.batchItems.any fun it => it.id == j) = true := by
        simpa [selInvB, hselv] using hs
      have hmap := any_id_map s.batchItems
        (fun it => if (it.id == i) = true then { it with previewUrl := s.nextHandle }
          else it) hg j
      simp only [applyOp, selInvB, hselv, hmap]
      exact hj
  | reset => simp [applyOp, selInvB]

theorem selInvB_foldl (ops : List StoreOp) :
    ∀ s : StoreState, selInvB s = true → opsSelSafeB s ops = true →
      selInvB (ops.foldl applyOp s) = true := by
  induction ops with
  | nil => intro s hs _; simpa using hs
  | cons op rest ih =>
    intro s hs hops
    have h1 : opSelSafeB s op = true := by
      have := hops
      simp only [opsSelSafeB, Bool.and_eq_true] at this
      exact this.1
    have h2 : opsSelSafeB (applyOp s op) rest = true := by
      have := hops
      simp only [opsSelSafeB, Bool.and_eq_true] at this
      exact this.2
    exact ih (applyOp s op) (selInvB_applyOp s op hs h1) h2

/-- C8 fails on the code: `setSelectedId` stores its argument verbatim, so
the single store operation `setSelectedId(some 5)` from the initial state
leaves the selection pointing at id 5 while the queue is empty. -/
theorem selection_invariant_counterexample :
    (applyOps [StoreOp.setSelectedId (some 5)]).selectedId = some 5
    ∧ (applyOps [StoreOp.setSelectedId (some 5)]).batchItems = []
    ∧ selInvB (applyOps [StoreOp.setSelectedId (some 5)]) = false :=
  ⟨rfl, rfl, rfl⟩

/-- C8 amended: after every sequence of store operations in which each
`setSelectedId`/`selectFile` call receives null or an id present in the
queue at call time and no `updateBatchItem` patch rewrites the id of an item,
the selection pointer is null or the id of an item in the current queue
(`addFiles`, `removeBatchItem`, `clearBatchItems`, `reset` and preview
updates need no restriction). -/
theorem selection_invariant (ops : List StoreOp)
    (h : opsSelSafeB initState ops = true) :
    selInvB (applyOps ops) = true :=
  selInvB_foldl ops initState rfl h

/-- Witness for `selection_invariant`: add one file (auto-selecting it),
select it explicitly, then remove it. -/
theorem selection_invariant_witness :
    opsSelSafeB initState [StoreOp.addFiles [7], StoreOp.setSelectedId (some 0),
      StoreOp.removeBatchItem 0] = true
    ∧ selInvB (applyOps [StoreOp.addFiles [7], StoreOp.setSelectedId (some 0),
      StoreOp.removeBatchItem 0]) = true :=
  ⟨by decide, selection_invariant _ (by decide)⟩

/-! ## Theorems about the store: removing an absent id -/

/-- C10 fails on the code: from the reachable state
`addFiles [7]; setSelectedId (some 99)` (one item with id 0, selection
pointing at the absent id 99), `removeBatchItem 99` is not a no-op — it
moves the selection to id 0 because the removal branch only compares the
argument against `selectedId`, not against the queue. -/
theorem removeAbsent_counterexample :
    ((applyOps [StoreOp.addFiles [7], StoreOp.setSelectedId (some 99)]).batchItems.all
        fun it => it.id != 99) = true
    ∧ applyOp (applyOps [StoreOp.addFiles [7], StoreOp.setSelectedId (some 99)])
        (StoreOp.removeBatchItem 99)
      ≠ applyOps [StoreOp.addFiles [7], StoreOp.setSelectedId (some 99)]
    ∧ (applyOp (applyOps [StoreOp.addFiles [7], StoreOp.setSelectedId (some 99)])
        (StoreOp.removeBatchItem 99)).selectedId = some 0
    ∧ (applyOps [StoreOp.addFiles [7], StoreOp.setSelectedId (some 99)]).selectedId
      = some 99 := by
  refine ⟨rfl, ?_, rfl, rfl⟩
  decide

/-- C10 amended: in any store state satisfying the selection invariant
(selection null or pointing into the queue), removing an id that no
queued item carries leaves the whole store state unchanged and revokes no
handles. -/
theorem removeAbsent_noop (s : StoreState) (i : Nat)
    (hsel : selInvB s = true)
    (habs : (s.batchItems.all fun it => it.id != i) = true) :
    applyOp s (StoreOp.removeBatchItem i) = s := by
  have habs' : ∀ it ∈ s.batchItems, it.id ≠ i := by
    intro it hmem
    have := List.all_eq_true.mp habs it hmem
    simpa using this
  have hfind : s.batchItems.find? (fun it => it.id == i) = none := by
    rw [List.find?_eq_none]
    intro it hmem
    simpa using habs' it hmem
  have hfil : s.batchItems.filter (fun it => it.id != i) = s.batchItems := by
    rw [List.filter_eq_self]
    intro it hmem
    simpa using habs' it hmem
  have hselne : s.selectedId ≠ some i := by
    intro hcontra
    have : (s.batchItems.any fun it => it.id == i) = true := by
      simpa [selInvB, hcontra] using hsel
    rcases List.any_eq_true.mp this with ⟨it, hmem, hit⟩
    exact habs' it hmem (by simpa using hit)
  simp only [applyOp, hfind, hfil, if_neg hselne]

/-- Witness for `removeAbsent_noop`: removing the absent id 99 right
after adding one file. -/
theorem removeAbsent_noop_witness :
    applyOp (applyOps [StoreOp.addFiles [7]]) (StoreOp.removeBatchItem 99)
      = applyOps [StoreOp.addFiles [7]] :=
  removeAbsent_noop (applyOps [StoreOp.addFiles [7]]) 99 (by decide) (by decide)

/-! ## Theorems about the store: handle lifecycle -/

/-- The handles currently held by queued items: for each item its `previewUrl`
together with its `processedUrl` when present. -/
def heldHandles (s : StoreState) : List Nat :=
  (s.batchItems.map fun it => it.previewUrl :: it.processedUrl.toList).flatten

/-- C5 fails on the code: `updateBatchItemPreview` installs the new
preview handle without revoking the old one.  After `addFiles [7]` (item
id 0, preview handle 0) and a preview update (fresh handle 1), handle 0 is
still live but no longer held by any queued item. -/
theorem updatePreview_leak_counterexample :
    (applyOps [StoreOp.addFiles [7],
        StoreOp.updateBatchItemPreviewFresh 0]).liveHandles = [0, 1]
    ∧ heldHandles (applyOps [StoreOp.addFiles [7],
        StoreOp.updateBatchItemPreviewFresh 0]) = [1]
    ∧ (applyOps [StoreOp.addFiles [7],
        StoreOp.updateBatchItemPreviewFresh 0]).liveHandles
      ≠ heldHandles (applyOps [StoreOp.addFiles [7],
        StoreOp.updateBatchItemPreviewFresh 0]) := by
  refine ⟨rfl, rfl, ?_⟩
  decide

/-- The store operations under which the no-leak invariant does hold:
everything except `updateBatchItemPreview` (which leaks the old preview
handle) and `updateBatchItem` patches that rewrite id, file or handle
fields (callers in the app only ever patch `status`). -/
def resourceOpOkB : StoreOp → Bool
  | .updateBatchItemPreviewFresh _ => false
  | .updateBatchItem _ p =>
    decide (p.id = none) && decide (p.fileIdx = none)
      && decide (p.previewUrl = none) && decide (p.processedUrl = none)
  | _ => true

/-- The freshness bundle carried through the induction: live handles are
exactly the queued preview handles, all handles and ids are distinct and
below their counters, and no item carries a processed handle (no caller in
the app ever installs one). -/
def goodState (s : StoreState) : Prop :=
  s.liveHandles = s.batchItems.map BatchItem.previewUrl
  ∧ (s.batchItems.map BatchItem.previewUrl).Nodup
  ∧ (∀ it ∈ s.batchItems, it.previewUrl < s.nextHandle)
  ∧ (s.batchItems.map BatchItem.id).Nodup
  ∧ (∀ it ∈ s.batchItems, it.id < s.nextId)
  ∧ (∀ it ∈ s.batchItems, it.processedUrl = none)

theorem mkNewItems_mem_bounds (fs : List Nat) :
    ∀ i h it, it ∈ mkNewItems fs i h →
      (i ≤ it.id ∧ it.id < i + fs.length)
      ∧ (h ≤ it.previewUrl ∧ it.previewUrl < h + fs.length)
      ∧ it.processedUrl = none := by
  induction fs with
  | nil => intro i h it hmem; simp [mkNewItems] at hmem
  | cons f fs ih =>
    intro i h it hmem
    rcases List.mem_cons.mp hmem with rfl | hmem'
    · refine ⟨⟨le_refl _, ?_⟩, ⟨le_refl _, ?_⟩, rfl⟩
      · show i < i + (f :: fs).length
        have hpos : 0 < (f :: fs).length := Nat.succ_pos _
        omega
      · show h < h + (f :: fs).length
        have hpos : 0 < (f :: fs).length := Nat.succ_pos _
        omega
    · have hb := ih (i + 1) (h + 1) it hmem'
      have hlen : (f :: fs).length = fs.length + 1 := rfl
      refine ⟨⟨?_, ?_⟩, ⟨?_, ?_⟩, hb.2.2⟩ <;> omega

theorem mkNewItems_map_previewUrl_nodup (fs : List Nat) :
    ∀ i h, ((mkNewItems fs i h).map BatchItem.previewUrl).Nodup := by
  induction fs with
  | nil => intro i h; simp [mkNewItems]
  | cons f fs ih =>
    intro i h
    simp only [mkNewItems, List.map_cons, List.nodup_cons]
    refine ⟨?_, ih (i + 1) (h + 1)⟩
    intro hmem
    rcases List.mem_map.mp hmem with ⟨it, hit, heq⟩
    have := (mkNewItems_mem_bounds fs (i + 1) (h + 1) it hit).2.1
    omega

theorem mkNewItems_map_id_nodup (fs : List Nat) :
    ∀ i h, ((mkNewItems fs i h).map BatchItem.id).Nodup := by
  induction fs with
  | nil => intro i h; simp [mkNewItems]
  | cons f fs ih =>
    intro i h
    simp only [mkNewItems, List.map_cons, List.nodup_cons]
    refine ⟨?_, ih (i + 1) (h + 1)⟩
    intro hmem
    rcases List.mem_map.mp hmem with ⟨it, hit, heq⟩
    have := (mkNewItems_mem_bounds fs (i + 1) (h + 1) it hit).1
    omega

theorem filter_remove_preview :
    ∀ (items : List BatchItem) (i : Nat) (it0 : BatchItem),
      items.find? (fun it => it.id == i) = some it0 →
      (items.map BatchItem.id).Nodup →
      (items.map BatchItem.previewUrl).Nodup →
      ((items.filter fun it => it.id != i).map BatchItem.previewUrl)
        = (items.map BatchItem.previewUrl).erase it0.previewUrl := by
  intro items
  induction items with
  | nil => intro i it0 hfind _ _; simp at hfind
  | cons a t ih =>
    intro i it0 hfind hids hprevs
    by_cases hpa : (a.id == i) = true
    · have hfind2 : ((a :: t).find? fun it => it.id == i) = some a :=
        List.find?_cons_of_pos t hpa
      have hit0 : it0 = a := by
        rw [hfind2] at hfind
        exact (Option.some.inj hfind).symm
      rw [hit0]
      have hai : a.id = i := by simpa using hpa
      have hnot : a.id ∉ t.map BatchItem.id :=
        (List.nodup_cons.mp (by simpa using hids)).1
      have htfil : t.filter (fun it => it.id != i) = t := by
        rw [List.filter_eq_self]
        intro it hmem
        have hneq : it.id ≠ i := by
          intro hcontra
          exact hnot (List.mem_map.mpr ⟨it, hmem, by omega⟩)
        simpa using hneq
      simp only [List.filter_cons, hai, bne_self_eq_false, Bool.false_eq_true,
        if_false, htfil, List.map_cons, List.erase_cons_head]
    · have hfind2 : ((a :: t).find? fun it => it.id == i)
          = t.find? fun it => it.id == i :=
        List.find?_cons_of_neg t (by simpa using hpa)
      have hfind' : t.find? (fun it => it.id == i) = some it0 := by
        rwa [hfind2] at hfind
      have hmem0 : it0 ∈ t := List.mem_of_find?_eq_some hfind'
      have hprev0 : it0.previewUrl ∈ t.map BatchItem.previewUrl :=
        List.mem_map.mpr ⟨it0, hmem0, rfl⟩
      have hnota : a.previewUrl ∉ t.map BatchItem.previewUrl :=
        (List.nodup_cons.mp (by simpa using hprevs)).1
      have hne : a.previewUrl ≠ it0.previewUrl := by
        intro hcontra
        rw [hcontra] at hnota
        exact hnota hprev0
      have hta : (a.id != i) = true := by simpa using hpa
      rw [List.filter_cons, if_pos hta, List.map_cons, List.map_cons,
        List.erase_cons_tail (by simpa using hne),
        ih i it0 hfind' (List.nodup_cons.mp (by simpa using hids)).2
          (List.nodup_cons.mp (by simpa using hprevs)).2]

theorem foldl_revoke_all :
    ∀ (items : List BatchItem) (live : List Nat),
      live = items.map BatchItem.previewUrl →
      (∀ it ∈ items, it.processedUrl = none) →
      items.foldl revokeItemHandles live = [] := by
  intro items
  induction items with
  | nil => intro live hlive _; simpa using hlive
  | cons a t ih =>
    intro live hlive hnone
    have ha : a.processedUrl = none := hnone a (by simp)
    have hstep : revokeItemHandles live a = t.map BatchItem.previewUrl := by
      rw [revokeItemHandles, ha, hlive, List.map_cons, List.erase_cons_head]
    rw [List.foldl_cons, hstep]
    exact ih _ rfl (fun it hmem => hnone it (by simp [hmem]))

theorem map_map_of_preserve (l : List BatchItem) (g : BatchItem → BatchItem)
    (f : BatchItem → Nat) (hg : ∀ it, f (g it) = f it) :
    (l.map g).map f = l.map f := by
  induction l with
  | nil => rfl
  | cons a t ih => simp only [List.map_cons, hg, ih]

theorem goodState_applyOp (s : StoreState) (op : StoreOp)
    (hok : resourceOpOkB op = true) (hg : goodState s) :
    goodState (applyOp s op) := by
  obtain ⟨hlive, hpnd, hpb, hind, hib, hproc⟩ := hg
  cases op with
  | addFiles files =>
    simp only [applyOp, goodState]
    refine ⟨?_, ?_, ?_, ?_, ?_, ?_⟩
    · rw [List.map_append, hlive]
    · rw [List.map_append, List.nodup_append]
      refine ⟨hpnd, mkNewItems_map_previewUrl_nodup _ _ _, ?_⟩
      intro x hx hx'
      rcases List.mem_map.mp hx with ⟨it, hit, rfl⟩
      rcases List.mem_map.mp hx' with ⟨it', hit', heq⟩
      have hb1 := hpb it hit
      have hb2 := (mkNewItems_mem_bounds _ _ _ it' hit').2.1
      omega
    · intro it hmem
      rw [mkNewItems_length]
      rcases List.mem_append.mp hmem with hm | hm
      · have := hpb it hm
        omega
      · exact (mkNewItems_mem_bounds _ _ _ it hm).2.1.2
    · rw [List.map_append, List.nodup_append]
      refine ⟨hind, mkNewItems_map_id_nodup _ _ _, ?_⟩
      intro x hx hx'
      rcases List.mem_map.mp hx with ⟨it, hit, rfl⟩
      rcases List.mem_map.mp hx' with ⟨it', hit', heq⟩
      have hb1 := hib it hit
      have hb2 := (mkNewItems_mem_bounds _ _ _ it' hit').1
      omega
    · intro it hmem
      rw [mkNewItems_length]
      rcases List.mem_append.mp hmem with hm | hm
      · have := hib it hm
        omega
      · exact (mkNewItems_mem_bounds _ _ _ it hm).1.2
    · intro it hmem
      rcases List.mem_append.mp hmem with hm | hm
      · exact hproc it hm
      · exact (mkNewItems_mem_bounds _ _ _ it hm).2.2
  | removeBatchItem i =>
    simp only [applyOp, goodState]
    cases hfind : s.batchItems.find? (fun it => it.id == i) with
    | none =>
      have hall : ∀ it ∈ s.batchItems, (it.id != i) = true := by
        intro it hmem
        have := List.find?_eq_none.mp hfind it hmem
        simpa using this
      have hfil : s.batchItems.filter (fun it => it.id != i) = s.batchItems :=
        List.filter_eq_self.mpr hall
      rw [hfil]
      exact ⟨hlive, hpnd, hpb, hind, hib, hproc⟩
    | some it0 =>
      have hmem0 : it0 ∈ s.batchItems := List.mem_of_find?_eq_some hfind
      have hrev : revokeItemHandles s.liveHandles it0
          = s.liveHandles.erase it0.previewUrl := by
        rw [revokeItemHandles, hproc it0 hmem0]
      have hfilkey := filter_remove_preview s.batchItems i it0 hfind hind hpnd
      have hsub : List.Sublist (s.batchItems.filter fun it => it.id != i)
          s.batchItems :=
        List.filter_sublist _
      refine ⟨?_, ?_, ?_, ?_, ?_, ?_⟩
      · show revokeItemHandles s.liveHandles it0
            = (s.batchItems.filter fun it => it.id != i).map BatchItem.previewUrl
        rw [hrev, hlive, hfilkey]
      · exact (hsub.map BatchItem.previewUrl).nodup hpnd
      · intro it hmem
        exact hpb it (List.mem_of_mem_filter hmem)
      · exact (hsub.map BatchItem.id).nodup hind
      · intro it hmem
        exact hib it (List.mem_of_mem_filter hmem)
      · intro it hmem
        exact hproc it (List.mem_of_mem_filter hmem)
  | clearBatchItems =>
    simp only [applyOp, goodState]
    refine ⟨?_, by simp, by simp, by simp, by simp, by simp⟩
    exact foldl_revoke_all s.batchItems s.liveHandles hlive hproc
  | setSelectedId oi => exact ⟨hlive, hpnd, hpb, hind, hib, hproc⟩
  | selectFile oi => exact ⟨hlive, hpnd, hpb, hind, hib, hproc⟩
  | updateBatchItem i p =>
    have hp : p.id = none ∧ p.fileIdx = none ∧ p.previewUrl = none
        ∧ p.processedUrl = none := by
      simpa [resourceOpOkB, Bool.and_eq_true, decide_eq_true_eq, and_assoc]
        using hok
    have hgp : ∀ it : BatchItem,
        (if (it.id == i) = true then applyPatch it p else it).previewUrl
          = it.previewUrl := by
      intro it
      by_cases hc : (it.id == i) = true
      · simp [hc, applyPatch, hp.2.2.1]
      · simp [hc]
    have hgi : ∀ it : BatchItem,
        (if (it.id == i) = true then applyPatch it p else it).id = it.id := by
      intro it
      by_cases hc : (it.id == i) = true
      · simp [hc, applyPatch, hp.1]
      · simp [hc]
    have hgproc : ∀ it : BatchItem,
        (if (it.id == i) = true then applyPatch it p else it).processedUrl
          = it.processedUrl := by
      intro it
      by_cases hc : (it.id == i) = true
      · simp [hc, applyPatch, hp.2.2.2]
      · simp [hc]
    simp only [applyOp, goodState]
    refine ⟨?_, ?_, ?_, ?_, ?_, ?_⟩
    · rw [map_map_of_preserve _ _ _ hgp, hlive]
    · rw [map_map_of_preserve _ _ _ hgp]; exact hpnd
    · intro it hmem
      rcases List.mem_map.mp hmem with ⟨it', hit', rfl⟩
      rw [hgp it']
      exact hpb it' hit'
    · rw [map_map_of_preserve _ _ _ hgi]; exact hind
    · intro it hmem
      rcases List.mem_map.mp hmem with ⟨it', hit', rfl⟩
      rw [hgi it']
      exact hib it' hit'
    · intro it hmem
      rcases List.mem_map.mp hmem with ⟨it', hit', rfl⟩
      rw [hgproc it']
      exact hproc it' hit'
  | updateBatchItemPreviewFresh i => simp [resourceOpOkB] at hok
  | reset =>
    simp only [applyOp, goodState]
    refine ⟨?_, by simp, by simp, by simp, by simp, by simp⟩
    exact foldl_revoke_all s.batchItems s.liveHandles hlive hproc

theorem goodState_foldl (ops : List StoreOp) :
    ∀ s : StoreState, ops.all resourceOpOkB = true → goodState s →
      goodState (ops.foldl applyOp s) := by
  induction ops with
  | nil => intro s _ hg; simpa using hg
  | cons op rest ih =>
    intro s hall hg
    have h1 : resourceOpOkB op = true := by
      have := hall
      simp only [List.all_cons, Bool.and_eq_true] at this
      exact this.1
    have h2 : rest.all resourceOpOkB = true := by
      have := hall
      simp only [List.all_cons, Bool.and_eq_true] at this
      exact this.2
    exact ih (applyOp s op) h2 (goodState_applyOp s op h1 hg)

theorem flatten_preview (items : List BatchItem)
    (h : ∀ it ∈ items, it.processedUrl = none) :
    (items.map fun it => it.previewUrl :: it.processedUrl.toList).flatten
      = items.map BatchItem.previewUrl := by
  induction items with
  | nil => rfl
  | cons a t ih =>
    have ha : a.processedUrl = none := h a (by simp)
    simp only [List.map_cons, List.flatten_cons, ha, Option.toList_none,
      List.cons_append, List.nil_append]
    rw [ih (fun it hm => h it (by simp [hm]))]

/-- C5 amended: `removeBatchItem`, `clearBatchItems` and `reset` do
release the handles of the removed items, so the live handles are exactly the
handles held by queued items after any operation sequence that avoids
`updateBatchItemPreview` (and avoids `updateBatchItem` patches touching
id/file/handle fields); `updateBatchItemPreview` itself breaks the
invariant by installing the new preview without releasing the old one. -/
theorem resource_invariant (ops : List StoreOp)
    (h : ops.all resourceOpOkB = true) :
    (applyOps ops).liveHandles = heldHandles (applyOps ops) := by
  have hinit : goodState initState := by
    refine ⟨rfl, ?_, ?_, ?_, ?_, ?_⟩ <;> simp [initState]
  have hg := goodState_foldl ops initState h hinit
  obtain ⟨hlive, _, _, _, _, hproc⟩ := hg
  rw [applyOps, heldHandles, flatten_preview _ hproc]
  exact hlive

/-- Witness for `resource_invariant`: add two files, remove the first,
then clear the queue. -/
theorem resource_invariant_witness :
    (applyOps [StoreOp.addFiles [3, 4], StoreOp.removeBatchItem 0,
        StoreOp.clearBatchItems]).liveHandles
      = heldHandles (applyOps [StoreOp.addFiles [3, 4],
        StoreOp.removeBatchItem 0, StoreOp.clearBatchItems]) :=
  resource_invariant _ (by decide)

end CW
